import Mathlib

/-!
Verification of the REV-address utilities (`src/rev-address.ts`).

The development shallowly embeds the address pipeline:
hex (base16) and base58 codecs, Keccak-256, Blake2b-256, secp256k1
public-key derivation, and the six exported operations
(`getAddrFromEth`, `getAddrFromPublicKey`, `getAddrFromPrivateKey`,
`verifyRevAddr`, `newRevAddress`, `revAddressFromMnemonic`,
`parseRevAddress`).

Byte strings are `List Nat` with every element intended `< 256`;
machine words are `Nat` reduced with explicit `% 2^64`.  JavaScript
strings are embedded as Lean `String` (all data here is ASCII, so
UTF-16 code-unit slicing coincides with character slicing).

The BIP-39 / BIP-32 libraries (`bip39`, `hdkey`) are external
collaborators; following the specification they are embedded at their
interface boundary as an explicit environment (`BipEnv`).
-/

set_option maxHeartbeats 2000000
set_option maxRecDepth 16384

namespace Rev

/-! ## Positional digit conversions (shared by base16/base58/byte codecs) -/

/-- Big-endian digits of `n` in base `b`, most significant first.
The first argument after `b` is structural fuel; with fuel `≥ n`
the result is the exact digit string of `n` (empty for `n = 0`). -/
def natDigits (b : Nat) : Nat → Nat → List Nat
  | 0, _ => []
  | fuel+1, n => if n = 0 then [] else natDigits b fuel (n / b) ++ [n % b]

/-- Value of a big-endian digit string in base `b`. -/
def digitsVal (b : Nat) (ds : List Nat) : Nat :=
  ds.foldl (fun a d => a * b + d) 0

theorem natDigits_zero (b : Nat) : ∀ fuel, natDigits b fuel 0 = [] := by
  intro fuel
  cases fuel <;> simp [natDigits]

theorem digitsVal_append (b : Nat) (l : List Nat) (d : Nat) :
    digitsVal b (l ++ [d]) = digitsVal b l * b + d := by
  simp [digitsVal, List.foldl_append]

theorem digitsVal_val (b : Nat) (hb : 2 ≤ b) :
    ∀ fuel n, n ≤ fuel → digitsVal b (natDigits b fuel n) = n := by
  intro fuel
  induction fuel with
  | zero =>
    intro n hn
    interval_cases n
    simp [natDigits, digitsVal]
  | succ fuel ih =>
    intro n hn
    by_cases h0 : n = 0
    · simp [h0, natDigits, digitsVal]
    · have hdiv : n / b < n := Nat.div_lt_self (Nat.pos_of_ne_zero h0) hb
      have : n / b ≤ fuel := by omega
      simp only [natDigits, if_neg h0]
      rw [digitsVal_append, ih _ this]
      rw [Nat.mul_comm]
      exact Nat.div_add_mod n b

theorem natDigits_lt (b : Nat) (hb : 0 < b) :
    ∀ fuel n d, d ∈ natDigits b fuel n → d < b := by
  intro fuel
  induction fuel with
  | zero => intro n d hd; simp [natDigits] at hd
  | succ fuel ih =>
    intro n d hd
    by_cases h0 : n = 0
    · simp [h0, natDigits] at hd
    · simp only [natDigits, if_neg h0, List.mem_append, List.mem_singleton] at hd
      rcases hd with hd | hd
      · exact ih _ _ hd
      · subst hd; exact Nat.mod_lt _ hb

theorem natDigits_length (b : Nat) (hb : 2 ≤ b) :
    ∀ fuel n k, n < b ^ k → (natDigits b fuel n).length ≤ k := by
  intro fuel
  induction fuel with
  | zero => intro n k _; simp [natDigits]
  | succ fuel ih =>
    intro n k hk
    by_cases h0 : n = 0
    · simp [h0, natDigits]
    · cases k with
      | zero =>
        simp only [pow_zero, Nat.lt_one_iff] at hk
        exact absurd hk h0
      | succ k =>
        simp only [natDigits, if_neg h0, List.length_append, List.length_singleton]
        have hdiv : n / b < b ^ k := by
          rw [Nat.div_lt_iff_lt_mul (by omega : 0 < b)]
          calc n < b ^ (k+1) := hk
            _ = b ^ k * b := by ring
        have := ih (n / b) k hdiv
        omega

theorem digitsVal_pos (b : Nat) (hb : 2 ≤ b) (h : Nat) (t : List Nat) (hh : h ≠ 0) :
    digitsVal b (h :: t) ≠ 0 := by
  have key : ∀ (l : List Nat) (a : Nat), a ≠ 0 → l.foldl (fun a d => a * b + d) a ≠ 0 := by
    intro l
    induction l with
    | nil => intro a ha; simpa using ha
    | cons d t ih =>
      intro a ha
      simp only [List.foldl_cons]
      apply ih
      have : a * b ≥ a * 2 := Nat.mul_le_mul_left a hb
      omega
  simp only [digitsVal, List.foldl_cons, Nat.zero_mul, Nat.zero_add]
  exact key t h hh

theorem natDigits_head_ne_zero (b : Nat) (hb : 2 ≤ b) :
    ∀ fuel n, n ≠ 0 → n ≤ fuel →
      natDigits b fuel n ≠ [] ∧ (natDigits b fuel n).head? ≠ some 0 := by
  intro fuel
  induction fuel with
  | zero => intro n h0 hn; omega
  | succ fuel ih =>
    intro n h0 hn
    simp only [natDigits, if_neg h0]
    by_cases hq : n / b = 0
    · rw [hq, natDigits_zero]
      have hlt : n < b := by
        by_contra hge
        have : 0 < n / b := Nat.div_pos (by omega) (by omega)
        omega
      constructor
      · simp
      · have : n % b = n := Nat.mod_eq_of_lt hlt
        simp [this, h0]
    · have hq' : n / b ≤ fuel := by
        have : n / b < n := Nat.div_lt_self (Nat.pos_of_ne_zero h0) hb
        omega
      obtain ⟨hne, hhd⟩ := ih (n / b) hq hq'
      constructor
      · simp [hne]
      · cases hd : natDigits b fuel (n / b) with
        | nil => exact absurd hd hne
        | cons x xs =>
          rw [hd] at hhd
          simp only [List.head?_cons] at hhd ⊢
          simpa using hhd

theorem natDigits_val (b : Nat) (hb : 2 ≤ b) (bs : List Nat) :
    (∀ d ∈ bs, d < b) → bs.head? ≠ some 0 →
    ∀ fuel, digitsVal b bs ≤ fuel → natDigits b fuel (digitsVal b bs) = bs := by
  induction bs using List.reverseRecOn with
  | nil => intro _ _ fuel _; simp [digitsVal, natDigits_zero]
  | append_singleton bs d ih =>
    intro hlt hhd fuel hfuel
    have hd : d < b := hlt d (by simp)
    rw [digitsVal_append] at hfuel ⊢
    by_cases hbs : bs = []
    · subst hbs
      simp only [digitsVal, List.foldl_nil, Nat.zero_mul, Nat.zero_add] at hfuel ⊢
      have hd0 : d ≠ 0 := by simpa using hhd
      cases fuel with
      | zero => omega
      | succ fuel =>
        simp only [natDigits, if_neg hd0]
        rw [Nat.div_eq_of_lt hd, natDigits_zero, Nat.mod_eq_of_lt hd]
    · have hh : bs.head? ≠ some 0 := by
        cases bs with
        | nil => exact absurd rfl hbs
        | cons x t => simpa using hhd
      have hv : digitsVal b bs ≠ 0 := by
        cases bs with
        | nil => exact absurd rfl hbs
        | cons x t => exact digitsVal_pos b hb x t (by simpa using hh)
      have h2v : 2 * digitsVal b bs ≤ digitsVal b bs * b := by
        rw [Nat.mul_comm]
        exact Nat.mul_le_mul (Nat.le_refl _) hb
      have hv1 : 1 ≤ digitsVal b bs := Nat.pos_of_ne_zero hv
      cases fuel with
      | zero => omega
      | succ fuel =>
        have hval0 : digitsVal b bs * b + d ≠ 0 := by omega
        simp only [natDigits, if_neg hval0]
        have hdivq : (digitsVal b bs * b + d) / b = digitsVal b bs := by
          rw [Nat.mul_comm, Nat.mul_add_div (by omega : 0 < b)]
          simp [Nat.div_eq_of_lt hd]
        have hmodq : (digitsVal b bs * b + d) % b = d := by
          rw [Nat.mul_comm, Nat.mul_add_mod]
          exact Nat.mod_eq_of_lt hd
        rw [hdivq, hmodq]
        have hvfuel : digitsVal b bs ≤ fuel := by omega
        rw [ih (fun x hx => hlt x (by simp [hx])) hh fuel hvfuel]

theorem digitsVal_cons_zero (b : Nat) (l : List Nat) :
    digitsVal b (0 :: l) = digitsVal b l := by
  simp [digitsVal]

theorem digitsVal_replicate_zero (b z : Nat) (l : List Nat) :
    digitsVal b (List.replicate z 0 ++ l) = digitsVal b l := by
  induction z with
  | zero => simp
  | succ z ih => rw [List.replicate_succ, List.cons_append, digitsVal_cons_zero, ih]

theorem takeWhile_zero_replicate (z : Nat) (l : List Nat) :
    (List.replicate z 0 ++ l).takeWhile (fun d => d == 0) =
      List.replicate z 0 ++ l.takeWhile (fun d => d == 0) := by
  induction z with
  | zero => simp
  | succ z ih =>
    rw [List.replicate_succ, List.cons_append, List.takeWhile_cons]
    simp [ih]

theorem takeWhile_head_ne_zero (l : List Nat) (h : l.head? ≠ some 0) :
    l.takeWhile (fun d => d == 0) = [] := by
  cases l with
  | nil => simp
  | cons x t =>
    have hx : x ≠ 0 := by simpa using h
    simp [List.takeWhile_cons, hx]

theorem head_dropWhile_ne_zero (l : List Nat) :
    (l.dropWhile (fun d => d == 0)).head? ≠ some 0 := by
  induction l with
  | nil => simp
  | cons x t ih =>
    rw [List.dropWhile_cons]
    by_cases hx : x = 0
    · simp [hx, ih]
    · simp [hx]

theorem takeWhile_zero_eq_replicate (l : List Nat) :
    l.takeWhile (fun d => d == 0) =
      List.replicate (l.takeWhile (fun d => d == 0)).length 0 := by
  apply List.eq_replicate_of_mem
  intro x hx
  have := List.mem_takeWhile_imp hx
  simpa using this

/-! ## Base16 (hex) codec

Modelled from the spec: the codec module (`./codecs`) is part of this
repository but its source is not available; the spec fixes its
interface as `encodeBase16`/`decodeBase16` for hex (§6), with hex in
the canonical records lowercase (§3).  `encodeBase16` renders bytes as
lowercase hex; `decodeBase16` reads hex digits of either case two at a
time (non-hex characters are ignored, a dangling nibble is dropped —
no claim depends on the behaviour at malformed input). -/

/-- Two-step induction principle for lists, matching the pairwise
recursion of the nibble codec. -/
theorem twoStepInduction {α : Type} {P : List α → Prop} (h0 : P [])
    (h1 : ∀ a, P [a]) (h2 : ∀ a b t, P t → P (a :: b :: t)) :
    ∀ l, P l
  | [] => h0
  | [a] => h1 a
  | a :: b :: t => h2 a b t (twoStepInduction h0 h1 h2 t)

def hexChars : List Char := "0123456789abcdef".data

def hexDigitChar (n : Nat) : Char := hexChars.getD n '0'

def hexCharVal? (c : Char) : Option Nat :=
  if 48 ≤ c.toNat ∧ c.toNat ≤ 57 then some (c.toNat - 48)
  else if 97 ≤ c.toNat ∧ c.toNat ≤ 102 then some (c.toNat - 87)
  else if 65 ≤ c.toNat ∧ c.toNat ≤ 70 then some (c.toNat - 55)
  else none

def hexOfBytes : List Nat → List Char
  | [] => []
  | x :: t => hexDigitChar (x / 16 % 16) :: hexDigitChar (x % 16) :: hexOfBytes t

/-- Pair up a nibble list into bytes (big-endian within each byte). -/
def nibblePairs : List Nat → List Nat
  | h :: l :: t => (h * 16 + l) :: nibblePairs t
  | _ => []

def encodeBase16 (bs : List Nat) : String := String.mk (hexOfBytes bs)

def decodeBase16 (s : String) : List Nat :=
  nibblePairs (s.data.filterMap hexCharVal?)

theorem hexDigitChar_mem (n : Nat) : hexDigitChar n ∈ hexChars := by
  unfold hexDigitChar
  by_cases h : n < hexChars.length
  · rw [List.getD_eq_getElem _ _ h]
    exact List.getElem_mem h
  · rw [List.getD_eq_default _ _ (by omega)]
    decide

theorem hexCharVal?_lt {c : Char} {v : Nat} (h : hexCharVal? c = some v) : v < 16 := by
  unfold hexCharVal? at h
  split_ifs at h <;> simp_all <;> omega

theorem hexCharVal?_hexDigitChar : ∀ v, v < 16 → hexCharVal? (hexDigitChar v) = some v := by
  decide

theorem hexDigitChar_hexCharVal :
    ∀ c ∈ hexChars, ∃ v, hexCharVal? c = some v ∧ hexDigitChar v = c ∧ v < 16 := by
  decide

theorem length_hexOfBytes (l : List Nat) : (hexOfBytes l).length = 2 * l.length := by
  induction l with
  | nil => rfl
  | cons x t ih => simp [hexOfBytes, ih]; omega

theorem mem_hexOfBytes (l : List Nat) : ∀ c ∈ hexOfBytes l, c ∈ hexChars := by
  induction l with
  | nil => simp [hexOfBytes]
  | cons x t ih =>
    intro c hc
    simp only [hexOfBytes, List.mem_cons] at hc
    rcases hc with rfl | rfl | hc
    · exact hexDigitChar_mem _
    · exact hexDigitChar_mem _
    · exact ih c hc

theorem hexOfBytes_append (l1 l2 : List Nat) :
    hexOfBytes (l1 ++ l2) = hexOfBytes l1 ++ hexOfBytes l2 := by
  induction l1 with
  | nil => rfl
  | cons x t ih => simp [hexOfBytes, ih]

theorem nibblePairs_lt (l : List Nat) (h : ∀ x ∈ l, x < 16) :
    ∀ y ∈ nibblePairs l, y < 256 := by
  induction l using twoStepInduction with
  | h0 => simp [nibblePairs]
  | h1 a => simp [nibblePairs]
  | h2 a b t ih =>
    intro y hy
    simp only [nibblePairs, List.mem_cons] at hy
    rcases hy with rfl | hy
    · have ha : a < 16 := h a (by simp)
      have hb : b < 16 := h b (by simp)
      omega
    · exact ih (fun x hx => h x (by simp [hx])) y hy

theorem decodeBase16_lt (s : String) : ∀ y ∈ decodeBase16 s, y < 256 := by
  apply nibblePairs_lt
  intro x hx
  obtain ⟨c, _, hc⟩ := List.mem_filterMap.mp hx
  exact hexCharVal?_lt hc

theorem decodeBase16_encodeBase16 (bs : List Nat) (h : ∀ x ∈ bs, x < 256) :
    decodeBase16 (encodeBase16 bs) = bs := by
  unfold decodeBase16 encodeBase16
  show nibblePairs ((hexOfBytes bs).filterMap hexCharVal?) = bs
  induction bs with
  | nil => rfl
  | cons x t ih =>
    have hx : x < 256 := h x (by simp)
    simp only [hexOfBytes, List.filterMap_cons,
      hexCharVal?_hexDigitChar (x / 16 % 16) (by omega),
      hexCharVal?_hexDigitChar (x % 16) (by omega)]
    rw [show nibblePairs (x / 16 % 16 :: x % 16 :: (hexOfBytes t).filterMap hexCharVal?) =
        (x / 16 % 16 * 16 + x % 16) :: nibblePairs ((hexOfBytes t).filterMap hexCharVal?)
      from rfl]
    rw [ih (fun y hy => h y (by simp [hy]))]
    congr 1
    omega

theorem hexOfBytes_nibblePairs (l : List Char) (h1 : ∀ c ∈ l, c ∈ hexChars)
    (h2 : l.length % 2 = 0) :
    hexOfBytes (nibblePairs (l.filterMap hexCharVal?)) = l := by
  induction l using twoStepInduction with
  | h0 => rfl
  | h1 a => simp at h2
  | h2 a b t ih =>
    obtain ⟨va, hva, hda, hvalt⟩ := hexDigitChar_hexCharVal a (h1 a (by simp))
    obtain ⟨vb, hvb, hdb, hvblt⟩ := hexDigitChar_hexCharVal b (h1 b (by simp))
    simp only [List.filterMap_cons, hva, hvb]
    rw [show nibblePairs (va :: vb :: t.filterMap hexCharVal?) =
        (va * 16 + vb) :: nibblePairs (t.filterMap hexCharVal?) from rfl]
    rw [show hexOfBytes ((va * 16 + vb) :: nibblePairs (t.filterMap hexCharVal?)) =
        hexDigitChar ((va * 16 + vb) / 16 % 16) :: hexDigitChar ((va * 16 + vb) % 16) ::
          hexOfBytes (nibblePairs (t.filterMap hexCharVal?)) from rfl]
    rw [ih (fun c hc => h1 c (by simp [hc])) (by simp at h2; omega)]
    rw [show (va * 16 + vb) / 16 % 16 = va by omega, show (va * 16 + vb) % 16 = vb by omega]
    rw [hda, hdb]

theorem encodeBase16_decodeBase16 (s : String) (h1 : ∀ c ∈ s.data, c ∈ hexChars)
    (h2 : s.data.length % 2 = 0) :
    encodeBase16 (decodeBase16 s) = s := by
  unfold decodeBase16 encodeBase16
  cases s with
  | mk l => exact congrArg String.mk (hexOfBytes_nibblePairs l h1 h2)

/-! ## Base58 codec

Modelled from the spec: the codec module also provides
`encodeBase58(bytes) -> string` and `decodeBase58(string) -> bytes | fails`
(§6); the call sites pass hex strings to `encodeBase58`.  This is the
Bitcoin base58 encoding: leading zero bytes map to leading `1`
characters, the remainder is the big-endian base-58 numeral of the
byte string's value; decoding fails on any character outside the
58-character alphabet. -/

def base58Chars : List Char :=
  "123456789ABCDEFGHJKLMNPQRSTUVWXYZabcdefghijkmnopqrstuvwxyz".data

def b58Char (d : Nat) : Char := base58Chars.getD d '1'

def b58Val? (c : Char) : Option Nat := base58Chars.findIdx? (fun x => x == c)

/-- Base58 encoding of a byte string: one `1` per leading zero byte,
then the base-58 numeral of the byte string's value. -/
def b58OfBytes (bs : List Nat) : String :=
  String.mk (List.replicate ((bs.takeWhile (fun b => b == 0)).length) '1'
    ++ (natDigits 58 (digitsVal 256 bs) (digitsVal 256 bs)).map b58Char)

/-- The repo's `encodeBase58` takes a hex string (see the call sites). -/
def encodeBase58 (hexStr : String) : String := b58OfBytes (decodeBase16 hexStr)

def b58Vals? : List Char → Option (List Nat)
  | [] => some []
  | c :: t =>
    match b58Val? c, b58Vals? t with
    | some d, some ds => some (d :: ds)
    | _, _ => none

/-- The repo's `decodeBase58safe`: base58 decoding that reports failure
as an absent result instead of raising. -/
def decodeBase58safe (s : String) : Option (List Nat) :=
  match b58Vals? s.data with
  | none => none
  | some ds =>
    some (List.replicate ((ds.takeWhile (fun d => d == 0)).length) 0
      ++ natDigits 256 (digitsVal 58 ds) (digitsVal 58 ds))

theorem b58Vals?_append {l1 l2 : List Char} {d1 d2 : List Nat}
    (h1 : b58Vals? l1 = some d1) (h2 : b58Vals? l2 = some d2) :
    b58Vals? (l1 ++ l2) = some (d1 ++ d2) := by
  induction l1 generalizing d1 with
  | nil =>
    simp only [b58Vals?, Option.some.injEq] at h1
    subst h1
    simpa using h2
  | cons c t ih =>
    simp only [b58Vals?] at h1
    cases hc : b58Val? c with
    | none => rw [hc] at h1; simp at h1
    | some v =>
      rw [hc] at h1
      cases ht : b58Vals? t with
      | none => rw [ht] at h1; simp at h1
      | some ds =>
        rw [ht] at h1
        simp only [Option.some.injEq] at h1
        subst h1
        rw [List.cons_append]
        show (match b58Val? c, b58Vals? (t ++ l2) with
          | some d, some ds => some (d :: ds)
          | _, _ => none) = some (v :: ds ++ d2)
        rw [hc, ih ht]
        rfl

theorem b58Vals?_replicate_one (z : Nat) :
    b58Vals? (List.replicate z '1') = some (List.replicate z 0) := by
  induction z with
  | zero => rfl
  | succ z ih => simp only [List.replicate_succ, b58Vals?, ih]; rfl

theorem b58Val?_b58Char : ∀ d, d < 58 → b58Val? (b58Char d) = some d := by
  decide

theorem b58Vals?_map (ds : List Nat) (h : ∀ d ∈ ds, d < 58) :
    b58Vals? (ds.map b58Char) = some ds := by
  induction ds with
  | nil => rfl
  | cons d t ih =>
    simp only [List.map_cons, b58Vals?, b58Val?_b58Char d (h d (by simp)),
      ih (fun x hx => h x (by simp [hx]))]

theorem digitsVal_eq_zero (b : Nat) (hb : 1 ≤ b) (l : List Nat)
    (h : digitsVal b l = 0) : ∀ x ∈ l, x = 0 := by
  induction l using List.reverseRecOn with
  | nil => simp
  | append_singleton t d ih =>
    rw [digitsVal_append] at h
    have hm : digitsVal b t * b = 0 := by omega
    have ht : digitsVal b t = 0 := by
      rcases Nat.mul_eq_zero.mp hm with h' | h'
      · exact h'
      · omega
    intro x hx
    rcases List.mem_append.mp hx with hx | hx
    · exact ih ht x hx
    · simp at hx; omega

theorem data_mk (l : List Char) : (String.mk l).data = l := rfl

theorem decodeBase58safe_eq_of_vals {s : String} {ds : List Nat}
    (h : b58Vals? s.data = some ds) :
    decodeBase58safe s = some (List.replicate ((ds.takeWhile (fun d => d == 0)).length) 0
      ++ natDigits 256 (digitsVal 58 ds) (digitsVal 58 ds)) := by
  unfold decodeBase58safe
  rw [h]

/-- Base58 round trip: decoding an encoded byte string restores it. -/
theorem decodeBase58safe_b58OfBytes (bs : List Nat) (h : ∀ x ∈ bs, x < 256) :
    decodeBase58safe (b58OfBytes bs) = some bs := by
  have hds_lt : ∀ d ∈ natDigits 58 (digitsVal 256 bs) (digitsVal 256 bs), d < 58 :=
    natDigits_lt 58 (by omega) _ _
  have hvals : b58Vals? (b58OfBytes bs).data =
      some (List.replicate ((bs.takeWhile (fun b => b == 0)).length) 0
        ++ natDigits 58 (digitsVal 256 bs) (digitsVal 256 bs)) := by
    unfold b58OfBytes
    rw [data_mk]
    exact b58Vals?_append
      (b58Vals?_replicate_one ((bs.takeWhile (fun b => b == 0)).length))
      (b58Vals?_map _ hds_lt)
  rw [decodeBase58safe_eq_of_vals hvals]
  have htw0 : (natDigits 58 (digitsVal 256 bs) (digitsVal 256 bs)).takeWhile
      (fun d => d == 0) = [] := by
    by_cases h0 : digitsVal 256 bs = 0
    · rw [h0, natDigits_zero]; rfl
    · exact takeWhile_head_ne_zero _
        (natDigits_head_ne_zero 58 (by omega) _ _ h0 (Nat.le_refl _)).2
  have htw : (List.replicate ((bs.takeWhile (fun b => b == 0)).length) 0
      ++ natDigits 58 (digitsVal 256 bs) (digitsVal 256 bs)).takeWhile (fun d => d == 0) =
      List.replicate ((bs.takeWhile (fun b => b == 0)).length) 0 := by
    rw [takeWhile_zero_replicate, htw0, List.append_nil]
  rw [htw, List.length_replicate]
  rw [digitsVal_replicate_zero]
  rw [digitsVal_val 58 (by omega) _ _ (Nat.le_refl _)]
  have hsplit : bs = List.replicate ((bs.takeWhile (fun b => b == 0)).length) 0
      ++ bs.dropWhile (fun b => b == 0) := by
    conv_lhs => rw [← List.takeWhile_append_dropWhile (p := fun b => b == 0) (l := bs)]
    rw [← takeWhile_zero_eq_replicate]
  have hval_drop : digitsVal 256 bs = digitsVal 256 (bs.dropWhile (fun b => b == 0)) := by
    conv_lhs => rw [hsplit]
    rw [digitsVal_replicate_zero]
  have hnd : natDigits 256 (digitsVal 256 bs) (digitsVal 256 bs) =
      bs.dropWhile (fun b => b == 0) := by
    rw [hval_drop]
    exact natDigits_val 256 (by omega) _
      (fun x hx => h x ((List.dropWhile_sublist _).subset hx))
      (head_dropWhile_ne_zero bs) _ (Nat.le_refl _)
  rw [hnd, ← hsplit]

/-- Round trip at the repo's interface: `encodeBase58` consumes hex. -/
theorem decodeBase58safe_encodeBase58 (hexStr : String) :
    decodeBase58safe (encodeBase58 hexStr) = some (decodeBase16 hexStr) :=
  decodeBase58safe_b58OfBytes _ (decodeBase16_lt hexStr)

/-! ## Keccak-256 (js-sha3 `keccak256`: original Keccak padding 0x01, rate 1088) -/

/-- Mask for 64-bit words. -/
def w64 : Nat := 18446744073709551616

def rotl64 (x k : Nat) : Nat :=
  ((x <<< (k % 64)) % w64) ||| (x >>> (64 - k % 64))

/-- Little-endian bytes (length `k`) of a 64-bit word. -/
def leBytes (k w : Nat) : List Nat := (List.range k).map (fun j => w / 256 ^ j % 256)

/-- Little-endian 64-bit lane from up to 8 bytes. -/
def laneOfBytes (bs : List Nat) : Nat := bs.foldr (fun b acc => b + 256 * acc) 0

def keccakRCs : List Nat :=
  [0x1, 0x8082, 0x800000000000808a, 0x8000000080008000, 0x808b, 0x80000001,
   0x8000000080008081, 0x8000000000008009, 0x8a, 0x88, 0x80008009, 0x8000000a,
   0x8000808b, 0x800000000000008b, 0x8000000000008089, 0x8000000000008003,
   0x8000000000008002, 0x8000000000000080, 0x800a, 0x800000008000000a,
   0x8000000080008081, 0x8000000000008080, 0x80000001, 0x8000000080008008]

/-- Source index and rotation for the combined rho+pi step, at each flat
destination index `x + 5*y`. -/
def keccakPiTable : List (Nat × Nat) :=
  [(0, 0), (6, 44), (12, 43), (18, 21), (24, 14), (3, 28), (9, 20), (10, 3),
   (16, 45), (22, 61), (1, 1), (7, 6), (13, 25), (19, 8), (20, 18), (4, 27),
   (5, 36), (11, 10), (17, 15), (23, 56), (2, 62), (8, 55), (14, 39), (15, 41),
   (21, 2)]

def keccakTheta (A : List Nat) : List Nat :=
  let C := fun x => (((A.getD x 0 ^^^ A.getD (x + 5) 0) ^^^ A.getD (x + 10) 0) ^^^
    A.getD (x + 15) 0) ^^^ A.getD (x + 20) 0
  let D := fun x => C ((x + 4) % 5) ^^^ rotl64 (C ((x + 1) % 5)) 1
  (List.range 25).map (fun i => A.getD i 0 ^^^ D (i % 5))

def keccakRhoPi (A : List Nat) : List Nat :=
  keccakPiTable.map (fun pr => rotl64 (A.getD pr.1 0) pr.2)

def keccakChi (B : List Nat) : List Nat :=
  (List.range 25).map (fun i =>
    B.getD i 0 ^^^ ((B.getD ((i % 5 + 1) % 5 + 5 * (i / 5)) 0 ^^^ (w64 - 1)) &&&
      B.getD ((i % 5 + 2) % 5 + 5 * (i / 5)) 0))

def keccakRound (A : List Nat) (rc : Nat) : List Nat :=
  let B := keccakChi (keccakRhoPi (keccakTheta A))
  B.set 0 (B.getD 0 0 ^^^ rc)

def keccakF (A : List Nat) : List Nat := keccakRCs.foldl keccakRound A

def keccakXorBlock (A block : List Nat) : List Nat :=
  (List.range 25).map (fun i =>
    A.getD i 0 ^^^ (if i < 17 then laneOfBytes ((block.drop (8 * i)).take 8) else 0))

def keccakAbsorb : Nat → List Nat → List Nat → List Nat
  | 0, A, _ => A
  | fuel+1, A, m =>
    if m.isEmpty then A
    else keccakAbsorb fuel (keccakF (keccakXorBlock A (m.take 136))) (m.drop 136)

def keccakPad (len : Nat) : List Nat :=
  if 136 - len % 136 = 1 then [0x81]
  else 0x01 :: List.replicate (136 - len % 136 - 2) 0 ++ [0x80]

def keccak256Bytes (msg : List Nat) : List Nat :=
  let padded := msg ++ keccakPad msg.length
  let A := keccakAbsorb (padded.length + 1) (List.replicate 25 0) padded
  leBytes 8 (A.getD 0 0) ++ leBytes 8 (A.getD 1 0) ++ leBytes 8 (A.getD 2 0) ++
    leBytes 8 (A.getD 3 0)

def keccak256Hex (bs : List Nat) : String := encodeBase16 (keccak256Bytes bs)

/-! ## Blake2b-256 (blakejs `blake2bHex` with `outlen = 32`, no key) -/

def rotr64 (x k : Nat) : Nat := (x >>> (k % 64)) ||| ((x <<< (64 - k % 64)) % w64)

def blakeIV : List Nat :=
  [0x6a09e667f3bcc908, 0xbb67ae8584caa73b, 0x3c6ef372fe94f82b, 0xa54ff53a5f1d36f1,
   0x510e527fade682d1, 0x9b05688c2b3e6c1f, 0x1f83d9abfb41bd6b, 0x5be0cd19137e2179]

def blakeSigma : List (List Nat) :=
  [[0, 1, 2, 3, 4, 5, 6, 7, 8, 9, 10, 11, 12, 13, 14, 15],
   [14, 10, 4, 8, 9, 15, 13, 6, 1, 12, 0, 2, 11, 7, 5, 3],
   [11, 8, 12, 0, 5, 2, 15, 13, 10, 14, 3, 6, 7, 1, 9, 4],
   [7, 9, 3, 1, 13, 12, 11, 14, 2, 6, 5, 10, 4, 0, 15, 8],
   [9, 0, 5, 7, 2, 4, 10, 15, 14, 1, 11, 12, 6, 8, 3, 13],
   [2, 12, 6, 10, 0, 11, 8, 3, 4, 13, 7, 5, 15, 14, 1, 9],
   [12, 5, 1, 15, 14, 13, 4, 10, 0, 7, 6, 3, 9, 2, 8, 11],
   [13, 11, 7, 14, 12, 1, 3, 9, 5, 0, 15, 4, 8, 6, 2, 10],
   [6, 15, 14, 9, 11, 3, 0, 8, 12, 2, 13, 7, 1, 4, 10, 5],
   [10, 2, 8, 4, 7, 6, 1, 5, 15, 11, 9, 14, 3, 12, 13, 0]]

def blakeG (v : List Nat) (a b c d x y : Nat) : List Nat :=
  let va := (v.getD a 0 + v.getD b 0 + x) % w64
  let vd := rotr64 (v.getD d 0 ^^^ va) 32
  let vc := (v.getD c 0 + vd) % w64
  let vb := rotr64 (v.getD b 0 ^^^ vc) 24
  let va2 := (va + vb + y) % w64
  let vd2 := rotr64 (vd ^^^ va2) 16
  let vc2 := (vc + vd2) % w64
  let vb2 := rotr64 (vb ^^^ vc2) 63
  (((v.set a va2).set b vb2).set c vc2).set d vd2

def blakeRound (m : List Nat) (v : List Nat) (r : Nat) : List Nat :=
  let s := blakeSigma.getD (r % 10) []
  let mg := fun i => m.getD (s.getD i 0) 0
  let v1 := blakeG v 0 4 8 12 (mg 0) (mg 1)
  let v2 := blakeG v1 1 5 9 13 (mg 2) (mg 3)
  let v3 := blakeG v2 2 6 10 14 (mg 4) (mg 5)
  let v4 := blakeG v3 3 7 11 15 (mg 6) (mg 7)
  let v5 := blakeG v4 0 5 10 15 (mg 8) (mg 9)
  let v6 := blakeG v5 1 6 11 12 (mg 10) (mg 11)
  let v7 := blakeG v6 2 7 8 13 (mg 12) (mg 13)
  blakeG v7 3 4 9 14 (mg 14) (mg 15)

def blakeCompress (h : List Nat) (block : List Nat) (t : Nat) (last : Bool) : List Nat :=
  let m := (List.range 16).map (fun i => laneOfBytes ((block.drop (8 * i)).take 8))
  let v0 := h ++ blakeIV
  let v1 := v0.set 12 (v0.getD 12 0 ^^^ (t % w64))
  let v2 := v1.set 13 (v1.getD 13 0 ^^^ (t / w64 % w64))
  let v3 := if last then v2.set 14 (v2.getD 14 0 ^^^ (w64 - 1)) else v2
  let vf := (List.range 12).foldl (fun v r => blakeRound m v r) v3
  (List.range 8).map (fun i => (h.getD i 0 ^^^ vf.getD i 0) ^^^ vf.getD (i + 8) 0)

def blake2bLoop : Nat → List Nat → Nat → List Nat → List Nat
  | 0, h, _, _ => h
  | fuel+1, h, t, m =>
    if m.length ≤ 128 then
      blakeCompress h (m ++ List.replicate (128 - m.length) 0) (t + m.length) true
    else
      blake2bLoop fuel (blakeCompress h (m.take 128) (t + 128) false) (t + 128) (m.drop 128)

def blake2b256Bytes (msg : List Nat) : List Nat :=
  let h0 := blakeIV.set 0 (blakeIV.getD 0 0 ^^^ 0x01010020)
  let hf := blake2bLoop (msg.length + 1) h0 0 msg
  leBytes 8 (hf.getD 0 0) ++ leBytes 8 (hf.getD 1 0) ++ leBytes 8 (hf.getD 2 0) ++
    leBytes 8 (hf.getD 3 0)

def blake2b256Hex (bs : List Nat) : String := encodeBase16 (blake2b256Bytes bs)

/-! ## secp256k1 public-key derivation

Modelled from the spec: the elliptic-curve library (`elliptic`) is an
external collaborator whose interface is
`deriveUncompressedPublicKey(privateKeyBytes) -> 65-byte point` (§6).
The group law is the standard Jacobian-coordinate arithmetic on
`y^2 = x^3 + 7` over the base field; the result is rendered as
`04 ‖ X ‖ Y` with 32-byte big-endian coordinates, 130 lowercase hex
characters in total, matching `key.getPublic(hex)` in the source. -/

def secpP : Nat :=
  0xfffffffffffffffffffffffffffffffffffffffffffffffffffffffefffffc2f

def secpN : Nat :=
  0xfffffffffffffffffffffffffffffffebaaedce6af48a03bbfd25e8cd0364141

def secpGx : Nat :=
  0x79be667ef9dcbbac55a06295ce870b07029bfcdb2dce28d959f2815b16f81798

def secpGy : Nat :=
  0x483ada7726a3c4655da4fbfc0e1108a8fd17b448a68554199c47d08ffb10d4b8

def fmul (a b : Nat) : Nat := a * b % secpP

def fadd (a b : Nat) : Nat := (a + b) % secpP

def fsub (a b : Nat) : Nat := (a + secpP - b % secpP) % secpP

/-- Modular exponentiation by repeated squaring (structural fuel). -/
def powMod : Nat → Nat → Nat → Nat
  | 0, _, _ => 1 % secpP
  | fuel+1, b, e =>
    if e = 0 then 1 % secpP
    else
      let r := powMod fuel (b * b % secpP) (e / 2)
      if e % 2 = 1 then r * b % secpP else r

structure JacPoint where
  X : Nat
  Y : Nat
  Z : Nat
deriving Repr, DecidableEq

def jacInf : JacPoint := ⟨1, 1, 0⟩

def jacDouble (Q : JacPoint) : JacPoint :=
  if Q.Z = 0 ∨ Q.Y = 0 then jacInf
  else
    let yy := fmul Q.Y Q.Y
    let s := fmul 4 (fmul Q.X yy)
    let m := fmul 3 (fmul Q.X Q.X)
    let x2 := fsub (fmul m m) (fmul 2 s)
    let y2 := fsub (fmul m (fsub s x2)) (fmul 8 (fmul yy yy))
    ⟨x2, y2, fmul 2 (fmul Q.Y Q.Z)⟩

def jacAdd (Q R : JacPoint) : JacPoint :=
  if Q.Z = 0 then R
  else if R.Z = 0 then Q
  else
    let z1z1 := fmul Q.Z Q.Z
    let z2z2 := fmul R.Z R.Z
    let u1 := fmul Q.X z2z2
    let u2 := fmul R.X z1z1
    let s1 := fmul Q.Y (fmul z2z2 R.Z)
    let s2 := fmul R.Y (fmul z1z1 Q.Z)
    if u1 = u2 then
      if s1 ≠ s2 then jacInf else jacDouble Q
    else
      let h := fsub u2 u1
      let r := fsub s2 s1
      let h2 := fmul h h
      let h3 := fmul h h2
      let x3 := fsub (fsub (fmul r r) h3) (fmul 2 (fmul u1 h2))
      let y3 := fsub (fmul r (fsub (fmul u1 h2) x3)) (fmul s1 h3)
      ⟨x3, y3, fmul h (fmul Q.Z R.Z)⟩

/-- Double-and-add scalar multiple of the generator. -/
def mulGAux : Nat → Nat → JacPoint → JacPoint → JacPoint
  | 0, _, acc, _ => acc
  | fuel+1, d, acc, addend =>
    if d = 0 then acc
    else mulGAux fuel (d / 2)
      (if d % 2 = 1 then jacAdd acc addend else acc) (jacDouble addend)

def mulG (d : Nat) : JacPoint := mulGAux 257 d jacInf ⟨secpGx, secpGy, 1⟩

/-- Affine coordinates; the point at infinity is rendered `(0, 0)`
(the pipeline is only ever reached with scalars for which the result
is a genuine affine point). -/
def toAffine (Q : JacPoint) : Nat × Nat :=
  let zi := powMod 300 Q.Z (secpP - 2)
  let zi2 := fmul zi zi
  (fmul Q.X zi2, fmul Q.Y (fmul zi zi2))

def hexToNat (s : String) : Nat :=
  s.data.foldl (fun a c => a * 16 + (hexCharVal? c).getD 0) 0

/-- Big-endian byte rendering of `n`, left-padded with zeros to `k` bytes. -/
def natToBytesPad (k n : Nat) : List Nat :=
  List.replicate (k - (natDigits 256 n n).length) 0 ++ natDigits 256 n n

/-- The source's `secp256k1.keyFromPrivate(privateKey)` followed by
`key.getPublic(hex)`: uncompressed 65-byte point, lowercase hex. -/
def secpGetPublicHex (privHex : String) : String :=
  let a := toAffine (mulG (hexToNat privHex))
  "04" ++ encodeBase16 (natToBytesPad 32 a.1) ++ encodeBase16 (natToBytesPad 32 a.2)

/-! ## String helpers

JavaScript string primitives used by `rev-address.ts`, embedded at the
character-list level (all data handled here is ASCII, so JS UTF-16
code-unit indexing agrees with character indexing). -/

/-- JS `text.replace` dropping one leading literal `0x`. -/
def strip0x (s : String) : String :=
  if s.data.take 2 = ['0', 'x'] then String.mk (s.data.drop 2) else s

/-- JS whitespace test, restricted to the ASCII range. -/
def isJsWhitespace (c : Char) : Bool :=
  c == ' ' || c == '\t' || c == '\n' || c == '\r' ||
    c == Char.ofNat 11 || c == Char.ofNat 12

/-- JS `s.trim()` (ASCII whitespace). -/
def trimAscii (s : String) : String :=
  String.mk (((s.data.dropWhile isJsWhitespace).reverse.dropWhile isJsWhitespace).reverse)

/-- JS `s.slice(0, n)` for `n ≥ 0`. -/
def strTake (s : String) (n : Nat) : String := String.mk (s.data.take n)

/-- JS `s.slice(0, -n)` for `n > 0`. -/
def strDropRight (s : String) (n : Nat) : String :=
  String.mk (s.data.take (s.data.length - n))

/-- JS `s.slice(-n)` for `n > 0`. -/
def strTakeRight (s : String) (n : Nat) : String :=
  String.mk (s.data.drop (s.data.length - n))

/-! ## The wallet record and the exported operations (`rev-address.ts`) -/

/-- Wallet descriptor (`interface RevAddress`).  All fields are optional
here: at the JS runtime even `revAddr` can be absent, because
`newRevAddress` and `revAddressFromMnemonic` spread a possibly
undefined record behind an unchecked type-cast. -/
structure RevAddress where
  revAddr : Option String
  ethAddr : Option String
  pubKey : Option String
  privKey : Option String
  mnemonic : Option String
deriving Repr, DecidableEq

/-- Three-byte coin identifier constant (`prefix.coinId`). -/
def prefixCoinId : String := "000000"

/-- Single version byte constant (`prefix.version`). -/
def prefixVersion : String := "00"

/-- Convert an Ethereum address to a REV address (`getAddrFromEth`). -/
def getAddrFromEth (ethAddrRaw : String) : Option String :=
  let ethAddr := strip0x ethAddrRaw
  if ethAddr = "" ∨ ethAddr.length ≠ 40 then none
  else
    let ethHash := keccak256Hex (decodeBase16 ethAddr)
    let payload := prefixCoinId ++ prefixVersion ++ ethHash
    let checksum := strTake (blake2b256Hex (decodeBase16 payload)) 8
    some (encodeBase58 (payload ++ checksum))

/-- Derive REV and ETH addresses from a public key
(`getAddrFromPublicKey`).  The guard `if revAddr = ""` mirrors the JS
truthiness test `revAddr ? ... : void 666`. -/
def getAddrFromPublicKey (publicKeyRaw : String) : Option RevAddress :=
  let publicKey := strip0x publicKeyRaw
  if publicKey = "" ∨ publicKey.length ≠ 130 then none
  else
    let pkHash := keccak256Hex ((decodeBase16 publicKey).drop 1)
    let ethAddr := strTakeRight pkHash 40
    match getAddrFromEth ethAddr with
    | some revAddr =>
      if revAddr = "" then none
      else some { revAddr := some revAddr, ethAddr := some ethAddr,
                  pubKey := none, privKey := none, mnemonic := none }
    | none => none

/-- Derive public / ETH / REV addresses from a private key
(`getAddrFromPrivateKey`). -/
def getAddrFromPrivateKey (privateKeyRaw : String) : Option RevAddress :=
  let privateKey := strip0x privateKeyRaw
  if privateKey = "" ∨ privateKey.length ≠ 64 then none
  else
    let pubKey := secpGetPublicHex privateKey
    match getAddrFromPublicKey pubKey with
    | some addr => some { addr with pubKey := some pubKey }
    | none => none

/-- Checksum validation of a REV address (`verifyRevAddr`). -/
def verifyRevAddr (revAddr : String) : Bool :=
  match decodeBase58safe revAddr with
  | none => false
  | some revBytes =>
    let revHex := encodeBase16 revBytes
    decide (strTakeRight revHex 8 =
      strTake (blake2b256Hex (decodeBase16 (strDropRight revHex 8))) 8)

/-! ## Wallet construction over the BIP-39 / BIP-32 interface

Modelled from the spec: the BIP-39 and BIP-32 libraries are external
collaborators, specified at their interface boundary (§6):
`generateMnemonic() -> phrase`, `validateMnemonic(phrase) -> bool`,
`mnemonicToSeed(phrase) -> 64 bytes`, and hd child derivation at the
fixed path returning a node with an optional private key.  They are
embedded as an explicit environment, so theorems quantify over every
possible behaviour of the libraries. -/

structure BipEnv where
  generateMnemonic : String
  validateMnemonic : String → Bool
  mnemonicToSeed : String → List Nat
  hdDerivePrivateKey : List Nat → Option (List Nat)

/-- Private-key derivation from a mnemonic (`privKeyFromMnemonic`):
seed, then hd child at the fixed path, then hex of its private key;
raises if the node has no private key. -/
def privKeyFromMnemonic (env : BipEnv) (mnemonic : String) : Except String String :=
  match env.hdDerivePrivateKey (env.mnemonicToSeed mnemonic) with
  | none => Except.error "Unable to derive private key (HD node neutered?)"
  | some pk => Except.ok (encodeBase16 pk)

/-- The JS object `mnemonic, privKey, ...addr` built by both wallet
constructors; spreading an undefined `addr` is a no-op, leaving the
address fields absent. -/
def mergeWalletRecord (mnemonic privKey : String) (addr : Option RevAddress) : RevAddress :=
  match addr with
  | some a => { a with mnemonic := some mnemonic, privKey := some privKey }
  | none => { revAddr := none, ethAddr := none, pubKey := none,
              privKey := some privKey, mnemonic := some mnemonic }

/-- Create a new wallet from a fresh mnemonic (`newRevAddress`). -/
def newRevAddress (env : BipEnv) : Except String RevAddress :=
  match privKeyFromMnemonic env env.generateMnemonic with
  | Except.error e => Except.error e
  | Except.ok privKey =>
    Except.ok (mergeWalletRecord env.generateMnemonic privKey
      (getAddrFromPrivateKey privKey))

/-- Restore a wallet from a mnemonic (`revAddressFromMnemonic`). -/
def revAddressFromMnemonic (env : BipEnv) (mnemonic : String) : Except String RevAddress :=
  if env.validateMnemonic mnemonic = false then Except.error "Invalid BIP-39 mnemonic"
  else
    match privKeyFromMnemonic env mnemonic with
    | Except.error e => Except.error e
    | Except.ok privKey =>
      Except.ok (mergeWalletRecord mnemonic privKey (getAddrFromPrivateKey privKey))

/-- Interpret an arbitrary string as private key, public key, ETH or
REV address (`parseRevAddress`).  Note the source applies the `0x`
strip before `trim`, and tags the detected-origin field with `val`
(the REV branch tags the raw `text`). -/
def parseRevAddress (text : String) : Option RevAddress :=
  let val := trimAscii (strip0x text)
  let fromPriv := getAddrFromPrivateKey val
  let fromPub := getAddrFromPublicKey val
  let fromEth := getAddrFromEth val
  let isRev := verifyRevAddr val
  if isRev then
    some { revAddr := some text, ethAddr := none, pubKey := none,
           privKey := none, mnemonic := none }
  else
    match fromPriv with
    | some r => some { r with privKey := some val }
    | none =>
      match fromPub with
      | some r => some { r with pubKey := some val }
      | none =>
        match fromEth with
        | some a => some { revAddr := some a, ethAddr := some val, pubKey := none,
                           privKey := none, mnemonic := none }
        | none => none

/-! ## Format lemmas: lengths, lowercase-hex canonicality -/

/-- A canonical hex field: every character is a lowercase hex digit
(hence in particular no `0x` prefix and no uppercase). -/
def isLowerHexChar (c : Char) : Bool := hexChars.contains c

def hexFieldCanonical (s : String) : Bool := s.data.all isLowerHexChar

theorem length_mk (l : List Char) : (String.mk l).length = l.length := rfl

theorem strData_append (s t : String) : (s ++ t).data = s.data ++ t.data := by
  cases s
  cases t
  rfl

theorem length_append_str (s t : String) : (s ++ t).length = s.length + t.length := by
  cases s with
  | mk a =>
    cases t with
    | mk b => exact List.length_append a b

theorem isLowerHexChar_of_mem : ∀ c ∈ hexChars, isLowerHexChar c = true := by
  decide

theorem mem_of_isLowerHexChar {c : Char} (h : isLowerHexChar c = true) : c ∈ hexChars := by
  unfold isLowerHexChar at h
  exact List.mem_of_elem_eq_true h

theorem hexFieldCanonical_mk_iff (l : List Char) :
    hexFieldCanonical (String.mk l) = true ↔ ∀ c ∈ l, isLowerHexChar c = true := by
  unfold hexFieldCanonical
  rw [data_mk]
  exact List.all_eq_true

theorem hexFieldCanonical_encodeBase16 (bs : List Nat) :
    hexFieldCanonical (encodeBase16 bs) = true := by
  unfold encodeBase16
  rw [hexFieldCanonical_mk_iff]
  intro c hc
  exact isLowerHexChar_of_mem c (mem_hexOfBytes bs c hc)

theorem hexFieldCanonical_append {s t : String} (hs : hexFieldCanonical s = true)
    (ht : hexFieldCanonical t = true) : hexFieldCanonical (s ++ t) = true := by
  unfold hexFieldCanonical at *
  rw [strData_append, List.all_append, hs, ht]
  rfl

theorem hexFieldCanonical_take {s : String} (hs : hexFieldCanonical s = true) (n : Nat) :
    hexFieldCanonical (strTake s n) = true := by
  unfold strTake
  rw [hexFieldCanonical_mk_iff]
  intro c hc
  unfold hexFieldCanonical at hs
  exact List.all_eq_true.mp hs c (List.take_subset n s.data hc)

theorem hexFieldCanonical_takeRight {s : String} (hs : hexFieldCanonical s = true) (n : Nat) :
    hexFieldCanonical (strTakeRight s n) = true := by
  unfold strTakeRight
  rw [hexFieldCanonical_mk_iff]
  intro c hc
  unfold hexFieldCanonical at hs
  exact List.all_eq_true.mp hs c (List.drop_subset _ s.data hc)

theorem hexFieldCanonical_dropRight {s : String} (hs : hexFieldCanonical s = true) (n : Nat) :
    hexFieldCanonical (strDropRight s n) = true := by
  unfold strDropRight
  rw [hexFieldCanonical_mk_iff]
  intro c hc
  unfold hexFieldCanonical at hs
  exact List.all_eq_true.mp hs c (List.take_subset _ s.data hc)

/-- A canonical hex string is unchanged by the `0x` strip (it cannot
contain the letter `x`). -/
theorem strip0x_of_canonical {s : String} (hs : hexFieldCanonical s = true) :
    strip0x s = s := by
  unfold strip0x
  split_ifs with h
  · exfalso
    have hx : 'x' ∈ s.data.take 2 := by rw [h]; simp
    have hx2 : 'x' ∈ s.data := List.take_subset _ _ hx
    unfold hexFieldCanonical at hs
    have := List.all_eq_true.mp hs 'x' hx2
    simp [isLowerHexChar, hexChars] at this
  · rfl

theorem length_leBytes (k w : Nat) : (leBytes k w).length = k := by
  simp [leBytes]

theorem mem_leBytes_lt (k w : Nat) : ∀ x ∈ leBytes k w, x < 256 := by
  intro x hx
  simp only [leBytes, List.mem_map] at hx
  obtain ⟨j, _, rfl⟩ := hx
  exact Nat.mod_lt _ (by omega)

theorem keccak256Bytes_length (m : List Nat) : (keccak256Bytes m).length = 32 := by
  simp [keccak256Bytes, length_leBytes]

theorem keccak256Bytes_lt (m : List Nat) : ∀ x ∈ keccak256Bytes m, x < 256 := by
  intro x hx
  simp only [keccak256Bytes, List.mem_append] at hx
  rcases hx with ((hx | hx) | hx) | hx <;> exact mem_leBytes_lt _ _ x hx

theorem blake2b256Bytes_length (m : List Nat) : (blake2b256Bytes m).length = 32 := by
  simp [blake2b256Bytes, length_leBytes]

theorem blake2b256Bytes_lt (m : List Nat) : ∀ x ∈ blake2b256Bytes m, x < 256 := by
  intro x hx
  simp only [blake2b256Bytes, List.mem_append] at hx
  rcases hx with ((hx | hx) | hx) | hx <;> exact mem_leBytes_lt _ _ x hx

theorem length_encodeBase16 (bs : List Nat) :
    (encodeBase16 bs).length = 2 * bs.length := by
  unfold encodeBase16
  rw [length_mk, length_hexOfBytes]

theorem keccak256Hex_length (m : List Nat) : (keccak256Hex m).length = 64 := by
  unfold keccak256Hex
  rw [length_encodeBase16, keccak256Bytes_length]

theorem blake2b256Hex_length (m : List Nat) : (blake2b256Hex m).length = 64 := by
  unfold blake2b256Hex
  rw [length_encodeBase16, blake2b256Bytes_length]

theorem keccak256Hex_canonical (m : List Nat) : hexFieldCanonical (keccak256Hex m) = true :=
  hexFieldCanonical_encodeBase16 _

theorem blake2b256Hex_canonical (m : List Nat) :
    hexFieldCanonical (blake2b256Hex m) = true :=
  hexFieldCanonical_encodeBase16 _

theorem secpP_pos : 0 < secpP := by decide

theorem secpP_lt : secpP < 256 ^ 32 := by decide

theorem fmul_lt (a b : Nat) : fmul a b < secpP := Nat.mod_lt _ secpP_pos

theorem natToBytesPad_length {k n : Nat} (h : n < 256 ^ k) :
    (natToBytesPad k n).length = k := by
  unfold natToBytesPad
  have := natDigits_length 256 (by omega) n n k h
  simp only [List.length_append, List.length_replicate]
  omega

theorem natToBytesPad_lt (k n : Nat) : ∀ x ∈ natToBytesPad k n, x < 256 := by
  intro x hx
  unfold natToBytesPad at hx
  rcases List.mem_append.mp hx with hx | hx
  · have := List.eq_of_mem_replicate hx
    omega
  · exact natDigits_lt 256 (by omega) n n x hx

theorem secpGetPublicHex_length (s : String) : (secpGetPublicHex s).length = 130 := by
  unfold secpGetPublicHex toAffine
  simp only
  rw [length_append_str, length_append_str, length_encodeBase16, length_encodeBase16]
  rw [natToBytesPad_length (lt_trans (fmul_lt _ _) secpP_lt),
    natToBytesPad_length (lt_trans (fmul_lt _ _) secpP_lt)]
  decide

theorem secpGetPublicHex_canonical (s : String) :
    hexFieldCanonical (secpGetPublicHex s) = true := by
  unfold secpGetPublicHex
  exact hexFieldCanonical_append (hexFieldCanonical_append (by decide)
    (hexFieldCanonical_encodeBase16 _)) (hexFieldCanonical_encodeBase16 _)

/-! ## The validator accepts every freshly constructed address -/

theorem length_data (s : String) : s.data.length = s.length := rfl

theorem mk_data (s : String) : String.mk s.data = s := by cases s; rfl

theorem verifyRevAddr_eq_of_decode {s : String} {bs : List Nat}
    (h : decodeBase58safe s = some bs) :
    verifyRevAddr s = decide (strTakeRight (encodeBase16 bs) 8 =
      strTake (blake2b256Hex (decodeBase16 (strDropRight (encodeBase16 bs) 8))) 8) := by
  unfold verifyRevAddr
  rw [h]

/-- Appending the first 8 hex characters of the Blake2b-256 digest of a
canonical even-length hex payload, then base58-encoding, always yields
an address the validator accepts. -/
theorem verifyRevAddr_constructed (payload : String)
    (hcanon : hexFieldCanonical payload = true) (heven : payload.length % 2 = 0) :
    verifyRevAddr (encodeBase58 (payload ++
      strTake (blake2b256Hex (decodeBase16 payload)) 8)) = true := by
  set C := strTake (blake2b256Hex (decodeBase16 payload)) 8 with hCdef
  have hCcanon : hexFieldCanonical C = true :=
    hexFieldCanonical_take (blake2b256Hex_canonical _) 8
  have hClen : C.data.length = 8 := by
    rw [hCdef]
    unfold strTake
    rw [data_mk, List.length_take, length_data, blake2b256Hex_length]
    decide
  have hH := decodeBase58safe_encodeBase58 (payload ++ C)
  rw [verifyRevAddr_eq_of_decode hH]
  have hHcanon : hexFieldCanonical (payload ++ C) = true :=
    hexFieldCanonical_append hcanon hCcanon
  have hHeven : (payload ++ C).data.length % 2 = 0 := by
    rw [strData_append, List.length_append, hClen, length_data]
    omega
  have hEnc : encodeBase16 (decodeBase16 (payload ++ C)) = payload ++ C :=
    encodeBase16_decodeBase16 _
      (fun c hc => mem_of_isLowerHexChar (List.all_eq_true.mp hHcanon c hc)) hHeven
  rw [hEnc]
  have hdatalen : (payload ++ C).data.length - 8 = payload.data.length := by
    rw [strData_append, List.length_append, hClen]
    omega
  have hdrop : strDropRight (payload ++ C) 8 = payload := by
    unfold strDropRight
    rw [hdatalen, strData_append, List.take_left, mk_data]
  have htr : strTakeRight (payload ++ C) 8 = C := by
    unfold strTakeRight
    rw [hdatalen, strData_append, List.drop_left, mk_data]
  rw [hdrop, htr]
  exact decide_eq_true rfl

theorem verifyRevAddr_empty : verifyRevAddr "" = false := by decide

/-- Unfolding of `getAddrFromEth` at any input passing the length guard. -/
theorem getAddrFromEth_eq_of_len {e : String} (h40 : (strip0x e).length = 40) :
    getAddrFromEth e = some (encodeBase58
      ((prefixCoinId ++ prefixVersion ++ keccak256Hex (decodeBase16 (strip0x e))) ++
        strTake (blake2b256Hex (decodeBase16
          (prefixCoinId ++ prefixVersion ++ keccak256Hex (decodeBase16 (strip0x e))))) 8)) := by
  have hne : ¬(strip0x e = "" ∨ (strip0x e).length ≠ 40) := by
    push_neg
    refine ⟨?_, by omega⟩
    intro h
    rw [h] at h40
    exact absurd h40 (by decide)
  simp only [getAddrFromEth]
  rw [if_neg hne]

theorem getAddrFromEth_spec {e : String} (h40 : (strip0x e).length = 40) :
    ∃ a, getAddrFromEth e = some a ∧ verifyRevAddr a = true := by
  refine ⟨_, getAddrFromEth_eq_of_len h40, ?_⟩
  apply verifyRevAddr_constructed
  · exact hexFieldCanonical_append
      (hexFieldCanonical_append (by decide) (by decide)) (keccak256Hex_canonical _)
  · rw [length_append_str, length_append_str, keccak256Hex_length]
    decide

theorem strTakeRight_canonical_length {s : String} (hcanon : hexFieldCanonical s = true)
    (n : Nat) (hn : n ≤ s.length) :
    (strTakeRight s n).length = n ∧ hexFieldCanonical (strTakeRight s n) = true ∧
      strip0x (strTakeRight s n) = strTakeRight s n := by
  have hc := hexFieldCanonical_takeRight hcanon n
  refine ⟨?_, hc, strip0x_of_canonical hc⟩
  unfold strTakeRight
  rw [length_mk, List.length_drop, length_data]
  omega

theorem getAddrFromPublicKey_spec {p : String} (h130 : (strip0x p).length = 130) :
    ∃ a eth, getAddrFromPublicKey p = some
        { revAddr := some a, ethAddr := some eth, pubKey := none,
          privKey := none, mnemonic := none } ∧
      verifyRevAddr a = true ∧ hexFieldCanonical eth = true := by
  have hne : ¬(strip0x p = "" ∨ (strip0x p).length ≠ 130) := by
    push_neg
    refine ⟨?_, by omega⟩
    intro h
    rw [h] at h130
    exact absurd h130 (by decide)
  obtain ⟨hlen, hceth, hstrip⟩ := strTakeRight_canonical_length
    (keccak256Hex_canonical ((decodeBase16 (strip0x p)).drop 1)) 40
    (by rw [keccak256Hex_length]; omega)
  have h40 : (strip0x (strTakeRight
      (keccak256Hex ((decodeBase16 (strip0x p)).drop 1)) 40)).length = 40 := by
    rw [hstrip, hlen]
  obtain ⟨a, ha, hv⟩ := getAddrFromEth_spec h40
  have hane : a ≠ "" := by
    intro hcontra
    rw [hcontra, verifyRevAddr_empty] at hv
    exact absurd hv (by decide)
  refine ⟨a, _, ?_, hv, hceth⟩
  simp only [getAddrFromPublicKey]
  rw [if_neg hne, ha]
  simp only [if_neg hane]

theorem getAddrFromPrivateKey_spec {k : String} (h64 : (strip0x k).length = 64) :
    ∃ a eth, getAddrFromPrivateKey k = some
        { revAddr := some a, ethAddr := some eth,
          pubKey := some (secpGetPublicHex (strip0x k)), privKey := none,
          mnemonic := none } ∧
      verifyRevAddr a = true ∧ hexFieldCanonical eth = true := by
  have hne : ¬(strip0x k = "" ∨ (strip0x k).length ≠ 64) := by
    push_neg
    refine ⟨?_, by omega⟩
    intro h
    rw [h] at h64
    exact absurd h64 (by decide)
  have hstrip : strip0x (secpGetPublicHex (strip0x k)) = secpGetPublicHex (strip0x k) :=
    strip0x_of_canonical (secpGetPublicHex_canonical _)
  have h130 : (strip0x (secpGetPublicHex (strip0x k))).length = 130 := by
    rw [hstrip, secpGetPublicHex_length]
  obtain ⟨a, eth, hpub, hv, hceth⟩ := getAddrFromPublicKey_spec h130
  refine ⟨a, eth, ?_, hv, hceth⟩
  simp only [getAddrFromPrivateKey]
  rw [if_neg hne, hpub]

/-! ## Claim C1 -/

/-- A string that is a 64-hex-character valid secp256k1 private key:
64 characters, all hex digits, value in the valid scalar range. -/
def validSecpPrivKeyHex (s : String) : Bool :=
  decide (s.length = 64) && s.data.all (fun c => (hexCharVal? c).isSome) &&
    decide (1 ≤ hexToNat s) && decide (hexToNat s < secpN)

/-- The result record exists, has an address, and that address passes
the checksum validator. -/
def revAddrVerifies (o : Option RevAddress) : Bool :=
  match o with
  | some r =>
    match r.revAddr with
    | some a => verifyRevAddr a
    | none => false
  | none => false

/-- C1: for every string that, after stripping an optional 0x prefix,
is a 64-hex-character valid secp256k1 private key,
`getAddrFromPrivateKey` returns a record (never none), and
`verifyRevAddr` applied to that record's `revAddr` returns true. -/
theorem C1_private_key_roundtrip (s : String)
    (h : validSecpPrivKeyHex (strip0x s) = true) :
    (getAddrFromPrivateKey s).isSome = true ∧
      revAddrVerifies (getAddrFromPrivateKey s) = true := by
  have h64 : (strip0x s).length = 64 := by
    unfold validSecpPrivKeyHex at h
    simp only [Bool.and_eq_true, decide_eq_true_eq] at h
    exact h.1.1.1
  obtain ⟨a, eth, heq, hv, _⟩ := getAddrFromPrivateKey_spec h64
  rw [heq]
  exact ⟨rfl, by simpa [revAddrVerifies] using hv⟩

def c1Key : String :=
  "0000000000000000000000000000000000000000000000000000000000000001"

/-- Witness for C1 at the concrete private key 1. -/
theorem C1_private_key_roundtrip_witness :
    validSecpPrivKeyHex (strip0x c1Key) = true ∧
      ((getAddrFromPrivateKey c1Key).isSome = true ∧
        revAddrVerifies (getAddrFromPrivateKey c1Key) = true) :=
  ⟨by decide, C1_private_key_roundtrip c1Key (by decide)⟩

/-! ## Claim C7 -/

/-- C7: inputs one character short or long of the required exact
length (after the optional 0x strip) are rejected with an absent
result by the corresponding derivation function. -/
theorem C7_neighbor_lengths_rejected (s : String) :
    (((strip0x s).length = 39 ∨ (strip0x s).length = 41) → getAddrFromEth s = none) ∧
    (((strip0x s).length = 63 ∨ (strip0x s).length = 65) →
      getAddrFromPrivateKey s = none) ∧
    (((strip0x s).length = 129 ∨ (strip0x s).length = 131) →
      getAddrFromPublicKey s = none) := by
  refine ⟨?_, ?_, ?_⟩
  · intro h
    simp only [getAddrFromEth]
    rw [if_pos (Or.inr (by omega))]
  · intro h
    simp only [getAddrFromPrivateKey]
    rw [if_pos (Or.inr (by omega))]
  · intro h
    simp only [getAddrFromPublicKey]
    rw [if_pos (Or.inr (by omega))]

/-- Witness for C7 at concrete strings of each boundary length. -/
theorem C7_neighbor_lengths_rejected_witness :
    getAddrFromEth (String.mk (List.replicate 39 'a')) = none ∧
    getAddrFromEth (String.mk (List.replicate 41 'a')) = none ∧
    getAddrFromPrivateKey (String.mk (List.replicate 63 'a')) = none ∧
    getAddrFromPrivateKey (String.mk (List.replicate 65 'a')) = none ∧
    getAddrFromPublicKey (String.mk (List.replicate 129 'a')) = none ∧
    getAddrFromPublicKey (String.mk (List.replicate 131 'a')) = none :=
  ⟨(C7_neighbor_lengths_rejected _).1 (Or.inl (by decide)),
   (C7_neighbor_lengths_rejected _).1 (Or.inr (by decide)),
   (C7_neighbor_lengths_rejected _).2.1 (Or.inl (by decide)),
   (C7_neighbor_lengths_rejected _).2.1 (Or.inr (by decide)),
   (C7_neighbor_lengths_rejected _).2.2 (Or.inl (by decide)),
   (C7_neighbor_lengths_rejected _).2.2 (Or.inr (by decide))⟩

/-! ## Claim C3 -/

/-- First successful alternative, in list order. -/
def firstSome (l : List (Option RevAddress)) : Option RevAddress :=
  l.foldr (fun a acc => match a with | some r => some r | none => acc) none

/-- Modelled from the spec: the parser as an ordered list of
interpretation attempts, all evaluated, with the first successful one
(in the order address, private key, public key, network address)
selected, each tagged with the field that supplied the original
value (§4.4, §9). -/
def parseRevAddressSpec (text : String) : Option RevAddress :=
  let val := trimAscii (strip0x text)
  firstSome
    [ if verifyRevAddr val then
        some { revAddr := some text, ethAddr := none, pubKey := none,
               privKey := none, mnemonic := none }
      else none,
      (getAddrFromPrivateKey val).map (fun r => { r with privKey := some val }),
      (getAddrFromPublicKey val).map (fun r => { r with pubKey := some val }),
      (getAddrFromEth val).map (fun a =>
        { revAddr := some a, ethAddr := some val, pubKey := none,
          privKey := none, mnemonic := none }) ]

/-- C3: `parseRevAddress` computes all four interpretations and
returns the first successful one in the precedence order
address, private key, public key, network address, tagged with the
originating field; it returns none exactly when all four fail. -/
theorem C3_parse_precedence (text : String) :
    parseRevAddress text = parseRevAddressSpec text ∧
      (parseRevAddress text = none ↔
        (verifyRevAddr (trimAscii (strip0x text)) = false ∧
          getAddrFromPrivateKey (trimAscii (strip0x text)) = none ∧
          getAddrFromPublicKey (trimAscii (strip0x text)) = none ∧
          getAddrFromEth (trimAscii (strip0x text)) = none)) := by
  simp only [parseRevAddress, parseRevAddressSpec, firstSome, List.foldr]
  cases hb : verifyRevAddr (trimAscii (strip0x text)) <;>
    cases hpriv : getAddrFromPrivateKey (trimAscii (strip0x text)) <;>
      cases hpub : getAddrFromPublicKey (trimAscii (strip0x text)) <;>
        cases heth : getAddrFromEth (trimAscii (strip0x text)) <;>
          simp

/-- Witness for C3 at a concrete input. -/
theorem C3_parse_precedence_witness :
    parseRevAddress "zz" = parseRevAddressSpec "zz" ∧
      (parseRevAddress "zz" = none ↔
        (verifyRevAddr (trimAscii (strip0x "zz")) = false ∧
          getAddrFromPrivateKey (trimAscii (strip0x "zz")) = none ∧
          getAddrFromPublicKey (trimAscii (strip0x "zz")) = none ∧
          getAddrFromEth (trimAscii (strip0x "zz")) = none)) :=
  C3_parse_precedence "zz"

/-! ## Claim C2 -/

theorem hexCharVal?_isSome_of_mem : ∀ c ∈ hexChars, (hexCharVal? c).isSome = true := by
  decide

theorem filterMap_length_all_some {α β : Type} (f : α → Option β) (l : List α)
    (h : ∀ c ∈ l, (f c).isSome = true) : (l.filterMap f).length = l.length := by
  induction l with
  | nil => rfl
  | cons c t ih =>
    have hc := h c (by simp)
    obtain ⟨v, hv⟩ := Option.isSome_iff_exists.mp hc
    rw [List.filterMap_cons, hv]
    simp only [List.length_cons]
    rw [ih (fun x hx => h x (by simp [hx]))]

theorem nibblePairs_append (l1 l2 : List Nat) (h : l1.length % 2 = 0) :
    nibblePairs (l1 ++ l2) = nibblePairs l1 ++ nibblePairs l2 := by
  induction l1 using twoStepInduction with
  | h0 => rfl
  | h1 a => simp at h
  | h2 a b t ih =>
    simp only [List.length_cons] at h
    simp only [List.cons_append]
    rw [show nibblePairs (a :: b :: (t ++ l2)) =
      (a * 16 + b) :: nibblePairs (t ++ l2) from rfl]
    rw [show nibblePairs (a :: b :: t) = (a * 16 + b) :: nibblePairs t from rfl]
    rw [ih (by omega)]
    rfl

/-- Decoding distributes over append when the left part is canonical
hex of even length. -/
theorem decodeBase16_append_canonical (s t : String)
    (hs : hexFieldCanonical s = true) (he : s.length % 2 = 0) :
    decodeBase16 (s ++ t) = decodeBase16 s ++ decodeBase16 t := by
  unfold decodeBase16
  rw [strData_append, List.filterMap_append]
  apply nibblePairs_append
  rw [filterMap_length_all_some]
  · rw [length_data]; exact he
  · intro c hc
    exact hexCharVal?_isSome_of_mem c
      (mem_of_isLowerHexChar (List.all_eq_true.mp hs c hc))

theorem take_hexOfBytes (bs : List Nat) : ∀ k,
    (hexOfBytes bs).take (2 * k) = hexOfBytes (bs.take k) := by
  induction bs with
  | nil => intro k; simp [hexOfBytes]
  | cons x t ih =>
    intro k
    cases k with
    | zero => simp [hexOfBytes]
    | succ k =>
      rw [show 2 * (k + 1) = 2 * k + 1 + 1 by omega]
      rw [show hexOfBytes (x :: t) =
        hexDigitChar (x / 16 % 16) :: hexDigitChar (x % 16) :: hexOfBytes t from rfl]
      rw [List.take_succ_cons, List.take_succ_cons, ih k]
      rfl

theorem decodeBase16_take_encodeBase16 (bs : List Nat) (k : Nat)
    (h : ∀ x ∈ bs, x < 256) :
    decodeBase16 (strTake (encodeBase16 bs) (2 * k)) = bs.take k := by
  unfold strTake encodeBase16
  rw [data_mk, take_hexOfBytes bs k]
  have : String.mk (hexOfBytes (bs.take k)) = encodeBase16 (bs.take k) := rfl
  rw [this]
  exact decodeBase16_encodeBase16 _ (fun x hx => h x (List.take_subset _ _ hx))

/-- Modelled from the spec: `addr-from-eth` described at the byte level
(§4.5): payload is the 3-byte coin-id prefix 0x000000, the version
byte 0x00, then the Keccak-256 digest of the decoded input; the
checksum is the first 4 bytes of the Blake2b-256 digest of the payload
bytes; the result is the base58 encoding of payload followed by
checksum. -/
def getAddrFromEthBytes (ethAddrRaw : String) : Option String :=
  let ethAddr := strip0x ethAddrRaw
  if ethAddr = "" ∨ ethAddr.length ≠ 40 then none
  else
    let payloadBytes := [0, 0, 0] ++ [0] ++ keccak256Bytes (decodeBase16 ethAddr)
    some (b58OfBytes (payloadBytes ++ (blake2b256Bytes payloadBytes).take 4))

/-- C2: on a 40-hex-character input (after the optional 0x strip),
`getAddrFromEth` returns the base58 encoding of payload followed by
checksum, with payload = 0x000000 ‖ 0x00 ‖ Keccak256(bytes) and
checksum the first 4 bytes of Blake2b-256 of the payload bytes. -/
theorem C2_eth_address_construction (s : String)
    (h40 : (strip0x s).length = 40)
    (_hhex : (strip0x s).data.all (fun c => (hexCharVal? c).isSome) = true) :
    getAddrFromEth s = getAddrFromEthBytes s ∧
      getAddrFromEthBytes s = some (b58OfBytes
        (([0, 0, 0] ++ [0] ++ keccak256Bytes (decodeBase16 (strip0x s))) ++
          (blake2b256Bytes
            ([0, 0, 0] ++ [0] ++ keccak256Bytes (decodeBase16 (strip0x s)))).take 4)) := by
  have hne : ¬(strip0x s = "" ∨ (strip0x s).length ≠ 40) := by
    push_neg
    refine ⟨?_, by omega⟩
    intro h
    rw [h] at h40
    exact absurd h40 (by decide)
  have hspec : getAddrFromEthBytes s = some (b58OfBytes
      (([0, 0, 0] ++ [0] ++ keccak256Bytes (decodeBase16 (strip0x s))) ++
        (blake2b256Bytes
          ([0, 0, 0] ++ [0] ++ keccak256Bytes (decodeBase16 (strip0x s)))).take 4)) := by
    simp only [getAddrFromEthBytes]
    rw [if_neg hne]
  refine ⟨?_, hspec⟩
  rw [getAddrFromEth_eq_of_len h40, hspec]
  congr 1
  unfold encodeBase58
  congr 1
  have hpc : hexFieldCanonical (prefixCoinId ++ prefixVersion) = true := by decide
  have hpayload_canon : hexFieldCanonical
      (prefixCoinId ++ prefixVersion ++ keccak256Hex (decodeBase16 (strip0x s))) = true :=
    hexFieldCanonical_append hpc (keccak256Hex_canonical _)
  have hpayload_even :
      (prefixCoinId ++ prefixVersion ++
        keccak256Hex (decodeBase16 (strip0x s))).length % 2 = 0 := by
    rw [length_append_str, length_append_str, keccak256Hex_length]
    decide
  rw [decodeBase16_append_canonical _ _ hpayload_canon hpayload_even]
  have hdec_payload : decodeBase16
      (prefixCoinId ++ prefixVersion ++ keccak256Hex (decodeBase16 (strip0x s))) =
      [0, 0, 0] ++ [0] ++ keccak256Bytes (decodeBase16 (strip0x s)) := by
    rw [decodeBase16_append_canonical _ _ hpc (by decide)]
    have h1 : decodeBase16 (prefixCoinId ++ prefixVersion) = [0, 0, 0] ++ [0] := by decide
    have h2 : decodeBase16 (keccak256Hex (decodeBase16 (strip0x s))) =
        keccak256Bytes (decodeBase16 (strip0x s)) := by
      unfold keccak256Hex
      exact decodeBase16_encodeBase16 _ (keccak256Bytes_lt _)
    rw [h1, h2]
  have hck : decodeBase16 (strTake (blake2b256Hex
      ([0, 0, 0] ++ [0] ++ keccak256Bytes (decodeBase16 (strip0x s)))) 8) =
      (blake2b256Bytes
        ([0, 0, 0] ++ [0] ++ keccak256Bytes (decodeBase16 (strip0x s)))).take 4 := by
    unfold blake2b256Hex
    rw [show (8 : Nat) = 2 * 4 from by omega,
      decodeBase16_take_encodeBase16 _ 4 (blake2b256Bytes_lt _)]
  rw [hdec_payload, hck]

def c2Input : String := "aaaaaaaaaaaaaaaaaaaaaaaaaaaaaaaaaaaaaaaa"

/-- Witness for C2 at a concrete 40-hex-character input. -/
theorem C2_eth_address_construction_witness :
    ((strip0x c2Input).length = 40 ∧
      (strip0x c2Input).data.all (fun c => (hexCharVal? c).isSome) = true) ∧
    (getAddrFromEth c2Input = getAddrFromEthBytes c2Input ∧
      getAddrFromEthBytes c2Input = some (b58OfBytes
        (([0, 0, 0] ++ [0] ++ keccak256Bytes (decodeBase16 (strip0x c2Input))) ++
          (blake2b256Bytes
            ([0, 0, 0] ++ [0] ++
              keccak256Bytes (decodeBase16 (strip0x c2Input)))).take 4))) :=
  ⟨⟨by decide, by decide⟩, C2_eth_address_construction c2Input (by decide) (by decide)⟩

/-! ## Claim C6 -/

/-- Result-shape of `getAddrFromPublicKey` on every successful call. -/
theorem getAddrFromPublicKey_shape {s : String} {r : RevAddress}
    (h : getAddrFromPublicKey s = some r) :
    r.pubKey = none ∧ r.privKey = none ∧
      r.ethAddr = some (strTakeRight
        (keccak256Hex ((decodeBase16 (strip0x s)).drop 1)) 40) := by
  simp only [getAddrFromPublicKey] at h
  by_cases hc : (strip0x s = "" ∨ (strip0x s).length ≠ 130)
  · rw [if_pos hc] at h
    exact absurd h (by simp)
  · rw [if_neg hc] at h
    split at h
    · split at h
      · exact absurd h (by simp)
      · simp only [Option.some.injEq] at h
        subst h
        exact ⟨rfl, rfl, rfl⟩
    · exact absurd h (by simp)

/-- Result-shape of `getAddrFromPrivateKey` on every successful call. -/
theorem getAddrFromPrivateKey_shape {s : String} {r : RevAddress}
    (h : getAddrFromPrivateKey s = some r) :
    r.privKey = none ∧ r.pubKey = some (secpGetPublicHex (strip0x s)) ∧
      ∃ r', getAddrFromPublicKey (secpGetPublicHex (strip0x s)) = some r' ∧
        r.ethAddr = r'.ethAddr := by
  simp only [getAddrFromPrivateKey] at h
  by_cases hc : (strip0x s = "" ∨ (strip0x s).length ≠ 64)
  · rw [if_pos hc] at h
    exact absurd h (by simp)
  · rw [if_neg hc] at h
    split at h
    next addr hp =>
      simp only [Option.some.injEq] at h
      subst h
      obtain ⟨hpk, hprv, _⟩ := getAddrFromPublicKey_shape hp
      exact ⟨hprv, rfl, addr, hp, rfl⟩
    next => exact absurd h (by simp)

def optCanonical (f : Option String) : Bool :=
  match f with
  | none => true
  | some v => hexFieldCanonical v

/-- Every present hex-carrying field of the record is canonical
lowercase hex without a 0x prefix. -/
def recFieldsCanonical (r : RevAddress) : Bool :=
  optCanonical r.privKey && optCanonical r.pubKey && optCanonical r.ethAddr

def optRecFieldsCanonical (o : Option RevAddress) : Bool :=
  match o with
  | none => true
  | some r => recFieldsCanonical r

def exceptFieldsCanonical (e : Except String RevAddress) : Bool :=
  match e with
  | Except.error _ => true
  | Except.ok r => recFieldsCanonical r

/-- A field is either exactly the processed input `val` (the tagged
originating field of the parser) or canonical hex. -/
def tagOrCanonical (val : String) (f : Option String) : Bool :=
  match f with
  | none => true
  | some v => v == val || hexFieldCanonical v

def parseFieldsTagOrCanonical (s : String) : Bool :=
  match parseRevAddress s with
  | none => true
  | some r =>
    tagOrCanonical (trimAscii (strip0x s)) r.privKey &&
      tagOrCanonical (trimAscii (strip0x s)) r.pubKey &&
      tagOrCanonical (trimAscii (strip0x s)) r.ethAddr

theorem ethAddr_field_canonical {s : String} {r : RevAddress}
    (h : getAddrFromPublicKey s = some r) : optCanonical r.ethAddr = true := by
  obtain ⟨_, _, heth⟩ := getAddrFromPublicKey_shape h
  rw [heth]
  exact hexFieldCanonical_takeRight (keccak256Hex_canonical _) 40

theorem getAddrFromPublicKey_canonical (s : String) :
    optRecFieldsCanonical (getAddrFromPublicKey s) = true := by
  cases hres : getAddrFromPublicKey s with
  | none => rfl
  | some r =>
    obtain ⟨hpk, hprv, heth⟩ := getAddrFromPublicKey_shape hres
    show recFieldsCanonical r = true
    unfold recFieldsCanonical
    rw [hpk, hprv, heth]
    simp only [optCanonical, Bool.true_and]
    exact hexFieldCanonical_takeRight (keccak256Hex_canonical _) 40

theorem getAddrFromPrivateKey_canonical (s : String) :
    optRecFieldsCanonical (getAddrFromPrivateKey s) = true := by
  cases hres : getAddrFromPrivateKey s with
  | none => rfl
  | some r =>
    obtain ⟨hprv, hpub, r', hr', heq⟩ := getAddrFromPrivateKey_shape hres
    obtain ⟨_, _, heth'⟩ := getAddrFromPublicKey_shape hr'
    show recFieldsCanonical r = true
    unfold recFieldsCanonical
    rw [hprv, hpub, heq, heth']
    simp only [optCanonical, Bool.true_and, Bool.and_eq_true]
    exact ⟨secpGetPublicHex_canonical _,
      hexFieldCanonical_takeRight (keccak256Hex_canonical _) 40⟩

theorem privKeyFromMnemonic_ok {env : BipEnv} {m v : String}
    (h : privKeyFromMnemonic env m = Except.ok v) : ∃ bs, v = encodeBase16 bs := by
  unfold privKeyFromMnemonic at h
  cases hd : env.hdDerivePrivateKey (env.mnemonicToSeed m) with
  | none => rw [hd] at h; exact absurd h (by simp)
  | some pk =>
    rw [hd] at h
    simp only [Except.ok.injEq] at h
    exact ⟨pk, h.symm⟩

theorem mergeWalletRecord_canonical (m v : String) (hv : hexFieldCanonical v = true)
    (o : Option RevAddress) (ho : optRecFieldsCanonical o = true) :
    recFieldsCanonical (mergeWalletRecord m v o) = true := by
  cases o with
  | none => simp [mergeWalletRecord, recFieldsCanonical, optCanonical, hv]
  | some a =>
    simp only [optRecFieldsCanonical, recFieldsCanonical, Bool.and_eq_true] at ho
    simp only [mergeWalletRecord, recFieldsCanonical, Bool.and_eq_true]
    exact ⟨⟨hv, ho.1.2⟩, ho.2⟩

theorem tagOrCanonical_none (val : String) : tagOrCanonical val none = true := rfl

theorem tagOrCanonical_self (val : String) : tagOrCanonical val (some val) = true := by
  simp [tagOrCanonical]

theorem tagOrCanonical_of_canonical {f : Option String} (val : String)
    (h : optCanonical f = true) : tagOrCanonical val f = true := by
  cases f with
  | none => rfl
  | some v =>
    simp only [optCanonical] at h
    simp [tagOrCanonical, h]

theorem parseRevAddress_tagOrCanonical (s : String) :
    parseFieldsTagOrCanonical s = true := by
  unfold parseFieldsTagOrCanonical
  cases hres : parseRevAddress s with
  | none => rfl
  | some r =>
    simp only [parseRevAddress] at hres
    cases hb : verifyRevAddr (trimAscii (strip0x s)) with
    | true =>
      rw [hb] at hres
      simp only [if_true] at hres
      simp only [Option.some.injEq] at hres
      subst hres
      rfl
    | false =>
      rw [hb] at hres
      simp only [Bool.false_eq_true, if_false] at hres
      split at hres
      next rp hrp =>
        simp only [Option.some.injEq] at hres
        subst hres
        obtain ⟨hprv, hpub, r', hr', heq⟩ := getAddrFromPrivateKey_shape hrp
        simp only [Bool.and_eq_true]
        refine ⟨⟨tagOrCanonical_self _, ?_⟩, ?_⟩
        · show tagOrCanonical _ rp.pubKey = true
          rw [hpub]
          exact tagOrCanonical_of_canonical _
            (by simp only [optCanonical]; exact secpGetPublicHex_canonical _)
        · show tagOrCanonical _ rp.ethAddr = true
          rw [heq]
          exact tagOrCanonical_of_canonical _ (ethAddr_field_canonical hr')
      next =>
        split at hres
        next rp hrp =>
          simp only [Option.some.injEq] at hres
          subst hres
          obtain ⟨hpk, hprv, heth⟩ := getAddrFromPublicKey_shape hrp
          simp only [Bool.and_eq_true]
          refine ⟨⟨?_, tagOrCanonical_self _⟩, ?_⟩
          · show tagOrCanonical _ rp.privKey = true
            rw [hprv]
            rfl
          · show tagOrCanonical _ rp.ethAddr = true
            rw [heth]
            exact tagOrCanonical_of_canonical _
              (by simp only [optCanonical]
                  exact hexFieldCanonical_takeRight (keccak256Hex_canonical _) 40)
        next =>
          split at hres
          next a ha =>
            simp only [Option.some.injEq] at hres
            subst hres
            simp only [Bool.and_eq_true]
            exact ⟨⟨tagOrCanonical_none _, tagOrCanonical_none _⟩, tagOrCanonical_self _⟩
          next => exact absurd hres (by simp)

theorem newRevAddress_canonical (env : BipEnv) :
    exceptFieldsCanonical (newRevAddress env) = true := by
  unfold exceptFieldsCanonical newRevAddress
  cases hpk : privKeyFromMnemonic env env.generateMnemonic with
  | error e => rfl
  | ok v =>
    obtain ⟨bs, rfl⟩ := privKeyFromMnemonic_ok hpk
    exact mergeWalletRecord_canonical _ _ (hexFieldCanonical_encodeBase16 bs) _
      (getAddrFromPrivateKey_canonical _)

theorem revAddressFromMnemonic_canonical (env : BipEnv) (m : String) :
    exceptFieldsCanonical (revAddressFromMnemonic env m) = true := by
  unfold exceptFieldsCanonical revAddressFromMnemonic
  cases hv : env.validateMnemonic m with
  | false => simp
  | true =>
    simp only [Bool.true_eq_false, if_false]
    cases hpk : privKeyFromMnemonic env m with
    | error e => rfl
    | ok v =>
      obtain ⟨bs, rfl⟩ := privKeyFromMnemonic_ok hpk
      exact mergeWalletRecord_canonical _ _ (hexFieldCanonical_encodeBase16 bs) _
        (getAddrFromPrivateKey_canonical _)

/-- C6 (amended): the hex fields computed by the derivation chain
(`pubKey`, `ethAddr` of the key-derivation functions, all hex fields of
the wallet constructors) are always canonical lowercase hex without a
0x prefix; in `parseRevAddress` results, every hex field is either
canonical or is the tagged originating field, which holds the
processed input (strip of one leading 0x, then trim) verbatim. -/
theorem C6_hex_fields_canonical_amended :
    (∀ s, optRecFieldsCanonical (getAddrFromPublicKey s) = true) ∧
    (∀ s, optRecFieldsCanonical (getAddrFromPrivateKey s) = true) ∧
    (∀ env, exceptFieldsCanonical (newRevAddress env) = true) ∧
    (∀ env m, exceptFieldsCanonical (revAddressFromMnemonic env m) = true) ∧
    (∀ s, parseFieldsTagOrCanonical s = true) :=
  ⟨getAddrFromPublicKey_canonical, getAddrFromPrivateKey_canonical,
    newRevAddress_canonical, revAddressFromMnemonic_canonical,
    parseRevAddress_tagOrCanonical⟩

def c6Input : String := " 0xaaaaaaaaaaaaaaaaaaaaaaaaaaaaaaaaaaaaaaaa"

def c6Tag : String := "0xaaaaaaaaaaaaaaaaaaaaaaaaaaaaaaaaaaaaaaaa"

/-- Counterexample to C6 as stated: with leading whitespace before the
0x prefix, `parseRevAddress` strips nothing (the strip runs before the
trim), the network-address interpretation succeeds, and the returned
`ethAddr` field retains the 0x prefix (and is not canonical hex). -/
theorem C6_counterexample :
    parseRevAddress c6Input = some
      { revAddr := some "1111gxTKHvjKnxqkbNC44QoNBTkR5TpxntguQjiG8MiDVgZxmG3bt",
        ethAddr := some c6Tag, pubKey := none, privKey := none, mnemonic := none } ∧
      hexFieldCanonical c6Tag = false ∧ c6Tag.data.take 2 = ['0', 'x'] :=
  ⟨by decide, by decide, by decide⟩

/-! ## Claims C4, C5, C8 (wallet construction) -/

/-- C4: a freshly generated wallet restores identically, field by
field, from its own mnemonic (given that the generator produces
phrases accepted by the validator, the defining BIP-39 property). -/
theorem C4_mnemonic_roundtrip (env : BipEnv) (w : RevAddress)
    (hval : env.validateMnemonic env.generateMnemonic = true)
    (hok : newRevAddress env = Except.ok w) :
    w.mnemonic = some env.generateMnemonic ∧
      revAddressFromMnemonic env env.generateMnemonic = Except.ok w := by
  unfold newRevAddress at hok
  cases hpk : privKeyFromMnemonic env env.generateMnemonic with
  | error e => rw [hpk] at hok; exact absurd hok (by simp)
  | ok v =>
    rw [hpk] at hok
    simp only [Except.ok.injEq] at hok
    subst hok
    constructor
    · unfold mergeWalletRecord
      cases getAddrFromPrivateKey v <;> rfl
    · unfold revAddressFromMnemonic
      simp only [hval, Bool.true_eq_false, if_false]
      rw [hpk]

/-- A fixed interface environment for the witnesses: a constant
generator, an always-accepting validator, and an hd derivation
returning the 32-byte scalar 1. -/
def bipEnv0 : BipEnv where
  generateMnemonic :=
    "legal winner thank year wave sausage worth useful legal winner thank yellow"
  validateMnemonic := fun _ => true
  mnemonicToSeed := fun _ => List.replicate 64 0
  hdDerivePrivateKey := fun _ => some (List.replicate 31 0 ++ [1])

def c4Wallet : RevAddress where
  revAddr := some "1111PXDQTDEd4XNuX4YWoB6XeL7ssWvhePGD2XmkENkG5sHfAMW9Q"
  ethAddr := some "7e5f4552091a69125d5dfcb7b8c2659029395bdf"
  pubKey := some ("0479be667ef9dcbbac55a06295ce870b07029bfcdb2dce28d959f2815b16f81798" ++
    "483ada7726a3c4655da4fbfc0e1108a8fd17b448a68554199c47d08ffb10d4b8")
  privKey := some "0000000000000000000000000000000000000000000000000000000000000001"
  mnemonic := some
    "legal winner thank year wave sausage worth useful legal winner thank yellow"

/-- Witness for C4 at a concrete environment and wallet. -/
theorem C4_mnemonic_roundtrip_witness :
    (bipEnv0.validateMnemonic bipEnv0.generateMnemonic = true ∧
      newRevAddress bipEnv0 = Except.ok c4Wallet) ∧
    (c4Wallet.mnemonic = some bipEnv0.generateMnemonic ∧
      revAddressFromMnemonic bipEnv0 bipEnv0.generateMnemonic = Except.ok c4Wallet) := by
  have h : (newRevAddress bipEnv0).toOption = some c4Wallet := by decide
  have h' : newRevAddress bipEnv0 = Except.ok c4Wallet := by
    cases hc : newRevAddress bipEnv0 with
    | error e => rw [hc] at h; exact absurd h (by simp [Except.toOption])
    | ok w =>
      rw [hc] at h
      simp only [Except.toOption, Option.some.injEq] at h
      rw [h]
  exact ⟨⟨rfl, h'⟩, C4_mnemonic_roundtrip bipEnv0 c4Wallet rfl h'⟩

/-- C5: under the interface guarantee that a seed-derived hd node has
a private key, `revAddressFromMnemonic` raises exactly on phrases the
BIP-39 validator rejects, the raised message is exactly
"Invalid BIP-39 mnemonic", and on accepted phrases it returns a
record. -/
theorem C5_invalid_mnemonic_error (env : BipEnv) (m : String)
    (hhd : (env.hdDerivePrivateKey (env.mnemonicToSeed m)).isSome = true) :
    (env.validateMnemonic m = false →
      revAddressFromMnemonic env m = Except.error "Invalid BIP-39 mnemonic") ∧
    (env.validateMnemonic m = true →
      ∃ r, revAddressFromMnemonic env m = Except.ok r) ∧
    (∀ e, revAddressFromMnemonic env m = Except.error e →
      env.validateMnemonic m = false ∧ e = "Invalid BIP-39 mnemonic") := by
  obtain ⟨pk, hpk⟩ := Option.isSome_iff_exists.mp hhd
  have hok : privKeyFromMnemonic env m = Except.ok (encodeBase16 pk) := by
    unfold privKeyFromMnemonic
    rw [hpk]
  cases hv : env.validateMnemonic m with
  | false =>
    have herr : revAddressFromMnemonic env m = Except.error "Invalid BIP-39 mnemonic" := by
      unfold revAddressFromMnemonic
      rw [hv, if_pos rfl]
    refine ⟨fun _ => herr, fun h => absurd h (by simp), fun e he => ?_⟩
    rw [herr] at he
    simp only [Except.error.injEq] at he
    exact ⟨rfl, he.symm⟩
  | true =>
    have hokk : revAddressFromMnemonic env m = Except.ok
        (mergeWalletRecord m (encodeBase16 pk)
          (getAddrFromPrivateKey (encodeBase16 pk))) := by
      unfold revAddressFromMnemonic
      simp only [hv, Bool.true_eq_false, if_false]
      rw [hok]
    refine ⟨fun h => absurd h (by simp), fun _ => ⟨_, hokk⟩, fun e he => ?_⟩
    rw [hokk] at he
    exact absurd he (by simp)

/-- An environment whose validator rejects exactly the phrase
"foo bar baz" (the concrete scenario in the spec). -/
def bipEnvFoo : BipEnv where
  generateMnemonic := ""
  validateMnemonic := fun s => decide (s ≠ "foo bar baz")
  mnemonicToSeed := fun _ => List.replicate 64 0
  hdDerivePrivateKey := fun _ => some (List.replicate 31 0 ++ [1])

/-- Witness for C5 at the concrete invalid phrase "foo bar baz". -/
theorem C5_invalid_mnemonic_error_witness :
    (bipEnvFoo.hdDerivePrivateKey (bipEnvFoo.mnemonicToSeed "foo bar baz")).isSome = true ∧
    ((bipEnvFoo.validateMnemonic "foo bar baz" = false →
      revAddressFromMnemonic bipEnvFoo "foo bar baz" =
        Except.error "Invalid BIP-39 mnemonic") ∧
    (bipEnvFoo.validateMnemonic "foo bar baz" = true →
      ∃ r, revAddressFromMnemonic bipEnvFoo "foo bar baz" = Except.ok r) ∧
    (∀ e, revAddressFromMnemonic bipEnvFoo "foo bar baz" = Except.error e →
      bipEnvFoo.validateMnemonic "foo bar baz" = false ∧ e = "Invalid BIP-39 mnemonic")) :=
  ⟨rfl, C5_invalid_mnemonic_error bipEnvFoo "foo bar baz" rfl⟩

/-- C8: when the hd derivation yields a 32-byte private key (the
structural guarantee for a seed-derived root), `newRevAddress` returns
a complete record: mnemonic, privKey, pubKey, ethAddr and revAddr all
present; the unchecked cast downstream of `getAddrFromPrivateKey`
cannot produce an absent result. -/
theorem C8_new_wallet_complete (env : BipEnv) (pk : List Nat)
    (hhd : env.hdDerivePrivateKey (env.mnemonicToSeed env.generateMnemonic) = some pk)
    (hlen : pk.length = 32) :
    ∃ w, newRevAddress env = Except.ok w ∧ w.mnemonic.isSome = true ∧
      w.privKey.isSome = true ∧ w.pubKey.isSome = true ∧
      w.ethAddr.isSome = true ∧ w.revAddr.isSome = true := by
  have hok : privKeyFromMnemonic env env.generateMnemonic =
      Except.ok (encodeBase16 pk) := by
    unfold privKeyFromMnemonic
    rw [hhd]
  have hstrip : strip0x (encodeBase16 pk) = encodeBase16 pk :=
    strip0x_of_canonical (hexFieldCanonical_encodeBase16 pk)
  have h64 : (strip0x (encodeBase16 pk)).length = 64 := by
    rw [hstrip, length_encodeBase16, hlen]
  obtain ⟨a, eth, heq, hv, _⟩ := getAddrFromPrivateKey_spec h64
  refine ⟨mergeWalletRecord env.generateMnemonic (encodeBase16 pk)
    (getAddrFromPrivateKey (encodeBase16 pk)), ?_, ?_⟩
  · unfold newRevAddress
    rw [hok]
  · rw [heq]
    unfold mergeWalletRecord
    exact ⟨rfl, rfl, rfl, rfl, rfl⟩

/-- Witness for C8 at a concrete environment. -/
theorem C8_new_wallet_complete_witness :
    (bipEnv0.hdDerivePrivateKey (bipEnv0.mnemonicToSeed bipEnv0.generateMnemonic) =
        some (List.replicate 31 0 ++ [1]) ∧
      (List.replicate 31 (0 : Nat) ++ [1]).length = 32) ∧
    (∃ w, newRevAddress bipEnv0 = Except.ok w ∧ w.mnemonic.isSome = true ∧
      w.privKey.isSome = true ∧ w.pubKey.isSome = true ∧
      w.ethAddr.isSome = true ∧ w.revAddr.isSome = true) :=
  ⟨⟨rfl, by decide⟩,
    C8_new_wallet_complete bipEnv0 (List.replicate 31 0 ++ [1]) rfl (by decide)⟩

/-! ## Claim C10 -/

/-- The degenerate address: base58 encoding of exactly the first 4
bytes of the Blake2b-256 digest of the empty byte string. -/
def degenerateAddr : String := b58OfBytes ((blake2b256Bytes []).take 4)

/-- C10: `verifyRevAddr` accepts an address whose base58 decoding is
only 4 bytes: the payload slice is empty, and the decoded bytes are
compared against the first 4 bytes of Blake2b-256 of the empty byte
string — so the encoding of exactly those digest bytes passes
despite carrying no payload at all. -/
theorem C10_degenerate_address_accepted :
    decodeBase58safe degenerateAddr = some [14, 87, 81, 192] ∧
      ([14, 87, 81, 192] : List Nat).length ≤ 4 ∧
      (blake2b256Bytes []).take 4 = [14, 87, 81, 192] ∧
      verifyRevAddr degenerateAddr = true ∧
      degenerateAddr = "NGA4f" :=
  ⟨by decide, by decide, by decide, by decide, by decide⟩

end Rev
